import Mathlib

/-!
# Verification of `resource_pool` (Bogdanp/resource_pool, `resource_pool.py`)

Shallow embedding of the two pool classes of `resource_pool.py`:

* `Pool` — the eager pool backed by a Python `queue.Queue(pool_size)`.
* `LazyPool` — the lazy pool guarded by a single condition variable, with an
  idle list `_pool`, a capacity `_pool_size` and a created count `_used_size`.

The embedding gives each method a sequential (single-thread) semantics: a
method is a pure function from the pool state to a result carrying the post
state.  Machine details that matter to the claims are kept explicit:

* the caller-supplied factory is modelled as `f : Nat → Except E R`; the
  `i`-th invocation (0-indexed, counted by the ghost field `calls`) returns
  `f i`, and an `Except.error` models the factory raising an exception;
* `LazyPool`'s `self._cond.notify()` calls are counted by the ghost field
  `wakeups` (each successful `put` and every `discard` notifies);
* a method that raises returns the state exactly as it was at the raise
  point, so the embedding records which mutations precede the raise in the
  Python source;
* Python `Queue(maxsize)` treats `maxsize <= 0` as unbounded, so the eager
  `put` (via `put_nowait`) raises `Full` iff `0 < pool_size` and
  `qsize() >= maxsize`;
* Python `list.pop()` pops the LAST element, so `LazyPool.get`'s fast path
  is `getLast?` / `dropLast`, and `put` appends at the end.
-/

namespace ResourcePool

/-- The `PoolFull` exception (raised by `put` when the pool is full). -/
inductive PoolFull : Type where
  | mk
deriving DecidableEq, Repr

/-- The `PoolTimeout` exception (raised by `get` when a timeout expires). -/
inductive PoolTimeout : Type where
  | mk
deriving DecidableEq, Repr

/-- Errors that can abort a constructor run: the `assert` in
`LazyPool.__init__`, an exception from the caller-supplied factory, or a
`PoolFull` raised by the `put` inside the constructor loop. -/
inductive InitError (E : Type) : Type where
  | assertFail
  | factory (e : E)
  | poolFull
deriving DecidableEq, Repr

/-! ## The eager `Pool` -/

/-- State of the eager `Pool`: the backing `Queue`'s items (front of the
queue at the head of the list; `Queue.get` pops the head, `Queue.put`
appends at the end), the fixed `_pool_size`, and the ghost count `calls`
of factory invocations made so far. -/
structure Pool (R : Type) : Type where
  queue : List R
  pool_size : Nat
  calls : Nat
deriving DecidableEq, Repr

/-- Result of `Pool.get`: the resource and post state, or `PoolTimeout`
with the post state (sequentially, a `get` on an empty queue never
returns a resource; with a numeric timeout it raises `PoolTimeout`). -/
inductive EGetResult (R : Type) : Type where
  | ok (r : R) (s : Pool R)
  | timeout (s : Pool R)
deriving DecidableEq, Repr

/-- Result of `Pool.put`: the post state, tagged with whether the call
returned normally or raised `PoolFull`. -/
inductive EPutResult (R : Type) : Type where
  | ok (s : Pool R)
  | full (s : Pool R)
deriving DecidableEq, Repr

/-- `Pool.put`: `self._pool.put_nowait(resource)`, re-raising `Full` as
`PoolFull`.  `Queue.put_nowait` raises `Full` iff `maxsize > 0` and
`qsize() >= maxsize`; the raise happens before any mutation. -/
def Pool.put (resource : R) (s : Pool R) : EPutResult R :=
  if 0 < s.pool_size ∧ s.pool_size ≤ s.queue.length then
    .full s
  else
    .ok { s with queue := s.queue ++ [resource] }

/-- `Pool.get`: `self._pool.get(timeout=timeout)`, re-raising `Empty` as
`PoolTimeout`.  Sequentially the queue is FIFO: pop the head if any. -/
def Pool.get (s : Pool R) : EGetResult R :=
  match s.queue with
  | [] => .timeout s
  | r :: rest => .ok r { s with queue := rest }

/-- The loop of `Pool.__init__`: `for _ in range(n): self.put(factory())`.
The factory is evaluated first (at index `calls`), then `put` runs; an
exception from either aborts the construction. -/
def Pool.initLoop (f : Nat → Except E R) : Nat → Pool R → Except (InitError E) (Pool R)
  | 0, s => .ok s
  | n + 1, s =>
    match f s.calls with
    | .error e => .error (.factory e)
    | .ok r =>
      match Pool.put r { s with calls := s.calls + 1 } with
      | .full _ => .error .poolFull
      | .ok s' => Pool.initLoop f n s'

/-- `Pool.__init__(factory, pool_size)`: build `Queue(pool_size)` and put
`pool_size` fresh resources.  No validation of `pool_size` is performed. -/
def Pool.init (f : Nat → Except E R) (pool_size : Nat) : Except (InitError E) (Pool R) :=
  Pool.initLoop f pool_size { queue := [], pool_size := pool_size, calls := 0 }

/-- `len(pool)` for the eager pool: `self._pool.qsize()`. -/
def Pool.size (s : Pool R) : Nat :=
  s.queue.length

/-! ## The lazy `LazyPool` -/

/-- State of `LazyPool`: the idle list `_pool` (append at the end on `put`;
`list.pop()` removes the last element), `_pool_size`, the created count
`_used_size`, plus two ghost counters: `calls` (factory invocations so
far) and `wakeups` (number of `self._cond.notify()` calls so far). -/
structure LazyPool (R : Type) : Type where
  pool : List R
  pool_size : Nat
  used_size : Nat
  calls : Nat
  wakeups : Nat
deriving DecidableEq, Repr

/-- Result of `LazyPool.get`: a resource with the post state, an exception
raised by the factory (propagated unchanged) with the post state, or
`PoolTimeout` with the post state. -/
inductive GetResult (E R : Type) : Type where
  | ok (r : R) (s : LazyPool R)
  | factoryError (e : E) (s : LazyPool R)
  | timeout (s : LazyPool R)
deriving DecidableEq, Repr

/-- Post state of a `LazyPool.get` call, whatever its outcome. -/
def GetResult.state : GetResult E R → LazyPool R
  | .ok _ s => s
  | .factoryError _ s => s
  | .timeout s => s

/-- Result of `LazyPool.put`: the post state, tagged with whether the call
returned normally or raised `PoolFull`. -/
inductive PutResult (R : Type) : Type where
  | ok (s : LazyPool R)
  | full (s : LazyPool R)
deriving DecidableEq, Repr

/-- `LazyPool.put`: under the lock, raise `PoolFull` if
`len(self._pool) == self._pool_size` (before any mutation); otherwise
append the resource and `notify()` one waiter. -/
def LazyPool.put (resource : R) (s : LazyPool R) : PutResult R :=
  if s.pool.length = s.pool_size then
    .full s
  else
    .ok { s with pool := s.pool ++ [resource], wakeups := s.wakeups + 1 }

/-- `LazyPool.get`, sequential semantics.  The `while not self._pool` loop:
if the idle list is non-empty, `self._pool.pop()` removes and returns the
last element; otherwise, if `self._used_size != self._pool_size`, increment
`_used_size` and return `self._factory()` (increment happens before the
factory call, so a factory exception leaves it incremented); otherwise the
call waits — sequentially no other thread can refill the pool, so with a
numeric timeout the wait expires and `PoolTimeout` is raised, with no
mutation. -/
def LazyPool.get (f : Nat → Except E R) (s : LazyPool R) : GetResult E R :=
  match s.pool.getLast? with
  | some r => .ok r { s with pool := s.pool.dropLast }
  | none =>
    if s.used_size ≠ s.pool_size then
      match f s.calls with
      | .ok r => .ok r { s with used_size := s.used_size + 1, calls := s.calls + 1 }
      | .error e => .factoryError e { s with used_size := s.used_size + 1, calls := s.calls + 1 }
    else
      .timeout s

/-- `LazyPool.discard`: under the lock, `self._used_size = max(0,
self._used_size - 1)` (truncated `Nat` subtraction is exactly this floor)
and `self._cond.notify()`.  The `resource` argument is never inspected. -/
def LazyPool.discard (resource : R) (s : LazyPool R) : LazyPool R :=
  { s with used_size := s.used_size - 1, wakeups := s.wakeups + 1 }

/-- The loop of `LazyPool.__init__`:
`for _ in range(min_instances): self._used_size += 1; self.put(factory())`.
The increment precedes the factory call, which precedes the `put`. -/
def LazyPool.initLoop (f : Nat → Except E R) :
    Nat → LazyPool R → Except (InitError E) (LazyPool R)
  | 0, s => .ok s
  | n + 1, s =>
    let s1 := { s with used_size := s.used_size + 1 }
    match f s1.calls with
    | .error e => .error (.factory e)
    | .ok r =>
      match LazyPool.put r { s1 with calls := s1.calls + 1 } with
      | .full _ => .error .poolFull
      | .ok s2 => LazyPool.initLoop f n s2

/-- `LazyPool.__init__(factory, pool_size, min_instances=0)`: the
`assert pool_size > min_instances` runs first; then `min_instances`
resources are created and put into the idle list. -/
def LazyPool.init (f : Nat → Except E R) (pool_size min_instances : Nat) :
    Except (InitError E) (LazyPool R) :=
  if pool_size > min_instances then
    LazyPool.initLoop f min_instances
      { pool := [], pool_size := pool_size, used_size := 0, calls := 0, wakeups := 0 }
  else
    .error .assertFail

/-- `len(pool)` for the lazy pool: `len(self._pool)`. -/
def LazyPool.size (s : LazyPool R) : Nat :=
  s.pool.length

/-! ## `reserve` (scoped acquisition)

`reserve` is a context manager: `resource = self.get(timeout); try: yield
resource; finally: self.put(resource)`.  The caller's block is modelled as
`body : R → Bool` (`true` = the block returns normally, `false` = it
raises); the `put` in the `finally` clause runs in either case. -/

/-- Outcome of `LazyPool.reserve`: the body ran and returned normally
(`ok`), the body raised but the resource was still put back
(`bodyRaised`), the `finally` clause's `put` raised `PoolFull`
(`putFull`), or `get` itself failed. -/
inductive ReserveResult (E R : Type) : Type where
  | ok (s : LazyPool R)
  | bodyRaised (s : LazyPool R)
  | putFull (s : LazyPool R)
  | factoryError (e : E) (s : LazyPool R)
  | timeout (s : LazyPool R)
deriving DecidableEq, Repr

/-- `LazyPool.reserve`. -/
def LazyPool.reserve (f : Nat → Except E R) (body : R → Bool) (s : LazyPool R) :
    ReserveResult E R :=
  match s.get f with
  | .ok r s1 =>
    match LazyPool.put r s1 with
    | .ok s2 => if body r then .ok s2 else .bodyRaised s2
    | .full s2 => .putFull s2
  | .factoryError e s1 => .factoryError e s1
  | .timeout s1 => .timeout s1

/-- Outcome of the eager `Pool.reserve`. -/
inductive EReserveResult (R : Type) : Type where
  | ok (s : Pool R)
  | bodyRaised (s : Pool R)
  | putFull (s : Pool R)
  | timeout (s : Pool R)
deriving DecidableEq, Repr

/-- `Pool.reserve`. -/
def Pool.reserve (body : R → Bool) (s : Pool R) : EReserveResult R :=
  match s.get with
  | .ok r s1 =>
    match Pool.put r s1 with
    | .ok s2 => if body r then .ok s2 else .bodyRaised s2
    | .full s2 => .putFull s2
  | .timeout s1 => .timeout s1

/-- A sequence of consecutive `Pool.put` calls: stops at the first
`PoolFull`, otherwise threads the state through. -/
def Pool.putMany : List R → Pool R → EPutResult R
  | [], s => .ok s
  | r :: rs, s =>
    match Pool.put r s with
    | .ok s' => Pool.putMany rs s'
    | .full s' => .full s'

/-! ## The wait loop of `LazyPool.get`, with an oracle for notifications

For the timeout claim we embed the `while` loop of `LazyPool.get` with the
effects of other threads made explicit: `events` is the trace of future
notifications, one per `self._cond.wait(timeout)` call that does not time
out.  Each `WakeEvent` records how much time the wait spent before being
notified (`elapsed`) and the shared state (`pool'`, `used'`) observed after
the lock is reacquired.  `Condition.wait(timeout)` returns `False` exactly
when the timeout expires before a notification, i.e. when `t < elapsed`
(or no notification ever arrives); in that case the loop raises
`PoolTimeout` after waiting the full `t`.  The source passes the SAME
`timeout` value to every `wait` call. -/

/-- A notification received by a waiting `get`: the time the wait spent
blocked, and the idle list / created count seen after the wake. -/
structure WakeEvent (R : Type) : Type where
  elapsed : Nat
  pool' : List R
  used' : Nat
deriving DecidableEq, Repr

/-- Outcome of the `get` loop: a popped resource, a switch to the create
branch, or `PoolTimeout`; each carries the total time spent waiting. -/
inductive GetLoopResult (R : Type) : Type where
  | popped (r : R) (total : Nat)
  | created (total : Nat)
  | timeout (total : Nat)
deriving DecidableEq, Repr

/-- The `while not self._pool` loop of `LazyPool.get` with timeout `t`,
run against the notification trace `events` from state (`pool`, `used`),
having already waited `total` time units.  Each iteration that reaches
`self._cond.wait(timeout)` passes the full original `t`. -/
def getWaitLoop (t ps : Nat) (events : List (WakeEvent R)) (pool : List R)
    (used total : Nat) : GetLoopResult R :=
  match pool.getLast? with
  | some r => .popped r total
  | none =>
    if used ≠ ps then
      .created total
    else
      match events with
      | [] => .timeout (total + t)
      | e :: rest =>
        if t < e.elapsed then
          .timeout (total + t)
        else
          getWaitLoop t ps rest e.pool' e.used' (total + e.elapsed)

/-! ## Reachable pool states -/

/-- Pool states reachable by sequences of operations in which callers
release only resources they previously borrowed.  `Pool.Reach f s b` says
state `s` with `b` outstanding borrows is reachable: construction leaves
zero borrows, a successful `get` adds one, and a `put` — permitted only
when the caller holds a borrow — removes one.  Failed calls leave the
state unchanged and need no step. -/
inductive Pool.Reach (f : Nat → Except E R) : Pool R → Nat → Prop where
  | init (n : Nat) (s : Pool R) :
      Pool.init f n = .ok s → Pool.Reach f s 0
  | get (s : Pool R) (b : Nat) (r : R) (s' : Pool R) :
      Pool.Reach f s b → s.get = .ok r s' → Pool.Reach f s' (b + 1)
  | put (s : Pool R) (b : Nat) (r : R) (s' : Pool R) :
      Pool.Reach f s (b + 1) → Pool.put r s = .ok s' → Pool.Reach f s' b

/-- Lazy pool states reachable from a successful construction under ANY
sequence of `get`/`put`/`discard` calls (no borrow discipline is needed
for the lazy pool's bounds, so this relation over-approximates the
disciplined traces). -/
inductive LazyPool.Reach (f : Nat → Except E R) : LazyPool R → Prop where
  | init (ps mi : Nat) (s : LazyPool R) :
      LazyPool.init f ps mi = .ok s → LazyPool.Reach f s
  | getOk (s : LazyPool R) (r : R) (s' : LazyPool R) :
      LazyPool.Reach f s → s.get f = .ok r s' → LazyPool.Reach f s'
  | getErr (s : LazyPool R) (e : E) (s' : LazyPool R) :
      LazyPool.Reach f s → s.get f = .factoryError e s' → LazyPool.Reach f s'
  | put (s : LazyPool R) (r : R) (s' : LazyPool R) :
      LazyPool.Reach f s → LazyPool.put r s = .ok s' → LazyPool.Reach f s'
  | discard (s : LazyPool R) (r : R) :
      LazyPool.Reach f s → LazyPool.Reach f (LazyPool.discard r s)

/-! ## Structural lemmas -/

/-- Case analysis of `Pool.put`: either the backing queue is bounded and
full and the call raises `PoolFull` without mutation, or the resource is
appended. -/
theorem Pool.put_full_or_append {R : Type} (r : R) (s : Pool R) :
    (0 < s.pool_size ∧ s.pool_size ≤ s.queue.length ∧ Pool.put r s = .full s) ∨
      (¬(0 < s.pool_size ∧ s.pool_size ≤ s.queue.length) ∧
        Pool.put r s = .ok { s with queue := s.queue ++ [r] }) := by
  by_cases hc : 0 < s.pool_size ∧ s.pool_size ≤ s.queue.length
  · exact Or.inl ⟨hc.1, hc.2, by simp only [Pool.put]; rw [if_pos hc]⟩
  · exact Or.inr ⟨hc, by simp only [Pool.put]; rw [if_neg hc]⟩

/-- Case analysis of `LazyPool.put`: either the idle list holds exactly
`pool_size` items and the call raises `PoolFull` without mutation, or the
resource is appended and one waiter is notified. -/
theorem LazyPool.put_full_or_notify {R : Type} (r : R) (s : LazyPool R) :
    (s.pool.length = s.pool_size ∧ LazyPool.put r s = .full s) ∨
      (s.pool.length ≠ s.pool_size ∧
        LazyPool.put r s =
          .ok { s with pool := s.pool ++ [r], wakeups := s.wakeups + 1 }) := by
  by_cases hc : s.pool.length = s.pool_size
  · exact Or.inl ⟨hc, by simp only [LazyPool.put]; rw [if_pos hc]⟩
  · exact Or.inr ⟨hc, by simp only [LazyPool.put]; rw [if_neg hc]⟩

/-- A completed eager constructor loop preserves the capacity and adds at
most `n` items to the queue. -/
theorem Pool.initLoop_bounds {E R : Type} (f : Nat → Except E R) :
    ∀ (n : Nat) (s s' : Pool R), Pool.initLoop f n s = .ok s' →
      s'.pool_size = s.pool_size ∧ s'.queue.length ≤ s.queue.length + n := by
  intro n
  induction n with
  | zero =>
    intro s s' h
    simp only [Pool.initLoop] at h
    cases h
    exact ⟨rfl, Nat.le_refl _⟩
  | succ n ih =>
    intro s s' h
    cases hf : f s.calls with
    | error e => simp [Pool.initLoop, hf] at h
    | ok r =>
      rcases Pool.put_full_or_append r { s with calls := s.calls + 1 } with ⟨_, _, hp⟩ | ⟨_, hp⟩
      · simp [Pool.initLoop, hf, hp] at h
      · simp only [Pool.initLoop, hf, hp] at h
        obtain ⟨h1, h2⟩ := ih _ _ h
        have e1 : s'.pool_size = s.pool_size := h1
        have e2 : s'.queue.length ≤ (s.queue ++ [r]).length + n := h2
        have e3 : (s.queue ++ [r]).length = s.queue.length + 1 := by
          simp
        exact ⟨e1, by omega⟩

/-- A completed lazy constructor loop preserves the capacity and advances
the created count, the idle-list length and the factory-call count by
exactly `n`. -/
theorem LazyPool.initLoop_counts {E R : Type} (f : Nat → Except E R) :
    ∀ (n : Nat) (s s' : LazyPool R), LazyPool.initLoop f n s = .ok s' →
      s'.pool_size = s.pool_size ∧ s'.used_size = s.used_size + n ∧
        s'.pool.length = s.pool.length + n ∧ s'.calls = s.calls + n := by
  intro n
  induction n with
  | zero =>
    intro s s' h
    simp only [LazyPool.initLoop] at h
    cases h
    exact ⟨rfl, rfl, rfl, rfl⟩
  | succ n ih =>
    intro s s' h
    cases hf : f s.calls with
    | error e => simp [LazyPool.initLoop, hf] at h
    | ok r =>
      rcases LazyPool.put_full_or_notify r
          { s with used_size := s.used_size + 1, calls := s.calls + 1 } with
        ⟨_, hp⟩ | ⟨_, hp⟩
      · simp [LazyPool.initLoop, hf, hp] at h
      · simp only [LazyPool.initLoop, hf, hp] at h
        obtain ⟨h1, h2, h3, h4⟩ := ih _ _ h
        have e1 : s'.pool_size = s.pool_size := h1
        have e2 : s'.used_size = s.used_size + 1 + n := h2
        have e3 : s'.pool.length = (s.pool ++ [r]).length + n := h3
        have e4 : s'.calls = s.calls + 1 + n := h4
        have e5 : (s.pool ++ [r]).length = s.pool.length + 1 := by
          simp
        exact ⟨e1, by omega, by omega, by omega⟩

/-- The capacity bounds hold in every reachable lazy pool state, and the
capacity is positive (the constructor's assertion guarantees
`pool_size > min_instances ≥ 0`). -/
theorem LazyPool.reach_bounds {E R : Type} (f : Nat → Except E R) (s : LazyPool R)
    (h : LazyPool.Reach f s) :
    0 < s.pool_size ∧ s.used_size ≤ s.pool_size ∧ s.pool.length ≤ s.pool_size := by
  induction h with
  | init ps mi s h =>
    simp only [LazyPool.init] at h
    split at h
    case isTrue hps =>
      obtain ⟨h1, h2, h3, _⟩ := LazyPool.initLoop_counts f mi _ _ h
      have e1 : s.pool_size = ps := h1
      have e2 : s.used_size = 0 + mi := h2
      have e3 : s.pool.length = ([] : List R).length + mi := h3
      have e4 : ([] : List R).length = 0 := rfl
      omega
    case isFalse hps => exact absurd h (by simp)
  | getOk s r s' hr hg ih =>
    cases hl : s.pool.getLast? with
    | some r0 =>
      simp only [LazyPool.get, hl] at hg
      cases hg
      refine ⟨ih.1, ih.2.1, ?_⟩
      show s.pool.dropLast.length ≤ s.pool_size
      have h1 := ih.2.2
      have h2 : s.pool.dropLast.length = s.pool.length - 1 := by
        simp
      omega
    | none =>
      simp only [LazyPool.get, hl] at hg
      split at hg
      case isTrue hu =>
        cases hf : f s.calls with
        | ok r1 =>
          rw [hf] at hg
          cases hg
          refine ⟨ih.1, ?_, ih.2.2⟩
          show s.used_size + 1 ≤ s.pool_size
          have h1 := ih.2.1
          omega
        | error e1 => rw [hf] at hg; exact absurd hg (by simp)
      case isFalse hu => exact absurd hg (by simp)
  | getErr s e s' hr hg ih =>
    cases hl : s.pool.getLast? with
    | some r0 =>
      simp only [LazyPool.get, hl] at hg
      exact absurd hg (by simp)
    | none =>
      simp only [LazyPool.get, hl] at hg
      split at hg
      case isTrue hu =>
        cases hf : f s.calls with
        | ok r1 => rw [hf] at hg; exact absurd hg (by simp)
        | error e1 =>
          rw [hf] at hg
          cases hg
          refine ⟨ih.1, ?_, ih.2.2⟩
          show s.used_size + 1 ≤ s.pool_size
          have h1 := ih.2.1
          omega
      case isFalse hu => exact absurd hg (by simp)
  | put s r s' hr hp ih =>
    simp only [LazyPool.put] at hp
    split at hp
    case isTrue hfull => exact absurd hp (by simp)
    case isFalse hne =>
      cases hp
      refine ⟨ih.1, ih.2.1, ?_⟩
      show (s.pool ++ [r]).length ≤ s.pool_size
      have h1 := ih.2.2
      have h2 : (s.pool ++ [r]).length = s.pool.length + 1 := by
        simp
      omega
  | discard s r hr ih =>
    refine ⟨ih.1, ?_, ih.2.2⟩
    show s.used_size - 1 ≤ s.pool_size
    have h1 := ih.2.1
    omega

/-- In every reachable eager pool state, the idle count plus the number of
outstanding borrows never exceeds the capacity. -/
theorem Pool.reach_capacity {E R : Type} (f : Nat → Except E R) (s : Pool R) (b : Nat)
    (h : Pool.Reach f s b) : s.queue.length + b ≤ s.pool_size := by
  induction h with
  | init n s h =>
    simp only [Pool.init] at h
    obtain ⟨h1, h2⟩ := Pool.initLoop_bounds f n _ _ h
    have e1 : s.pool_size = n := h1
    have e2 : s.queue.length ≤ ([] : List R).length + n := h2
    have e3 : ([] : List R).length = 0 := rfl
    omega
  | get s b r s' hr hg ih =>
    cases hq : s.queue with
    | nil =>
      simp only [Pool.get, hq] at hg
      exact absurd hg (by simp)
    | cons r0 rest =>
      simp only [Pool.get, hq] at hg
      cases hg
      show rest.length + (b + 1) ≤ s.pool_size
      have h1 : s.queue.length = rest.length + 1 := by
        rw [hq]
        simp
      omega
  | put s b r s' hr hp ih =>
    simp only [Pool.put] at hp
    split at hp
    case isTrue hfull => exact absurd hp (by simp)
    case isFalse hok =>
      cases hp
      show (s.queue ++ [r]).length + b ≤ s.pool_size
      have h1 : (s.queue ++ [r]).length = s.queue.length + 1 := by
        simp
      omega

/-- Forward run of the lazy constructor loop: if there is room for `n`
more idle resources and the next `n` factory calls succeed, the loop
completes and advances every counter by exactly `n`. -/
theorem LazyPool.initLoop_spec {E R : Type} (f : Nat → Except E R) :
    ∀ (n : Nat) (s : LazyPool R), s.pool.length + n ≤ s.pool_size →
      (∀ i, i < n → ∃ r, f (s.calls + i) = Except.ok r) →
      ∃ s', LazyPool.initLoop f n s = .ok s' ∧ s'.pool_size = s.pool_size ∧
        s'.used_size = s.used_size + n ∧ s'.pool.length = s.pool.length + n ∧
        s'.calls = s.calls + n := by
  intro n
  induction n with
  | zero =>
    intro s _ _
    exact ⟨s, rfl, rfl, rfl, rfl, rfl⟩
  | succ n ih =>
    intro s hroom hf
    obtain ⟨r, hr⟩ := hf 0 (Nat.succ_pos n)
    have hr' : f s.calls = Except.ok r := by
      have : s.calls + 0 = s.calls := rfl
      rw [this] at hr
      exact hr
    rcases LazyPool.put_full_or_notify r
        { s with used_size := s.used_size + 1, calls := s.calls + 1 } with
      ⟨hfull, _⟩ | ⟨_, hp⟩
    · have hfull' : s.pool.length = s.pool_size := hfull
      omega
    · have hroom2 : (s.pool ++ [r]).length + n ≤ s.pool_size := by
        have e1 : (s.pool ++ [r]).length = s.pool.length + 1 := by
          simp
        omega
      have hf2 : ∀ i, i < n → ∃ r2, f (s.calls + 1 + i) = Except.ok r2 := by
        intro i hi
        obtain ⟨r2, hr2⟩ := hf (i + 1) (by omega)
        refine ⟨r2, ?_⟩
        have e2 : s.calls + (i + 1) = s.calls + 1 + i := by omega
        rw [← e2]
        exact hr2
      obtain ⟨s', h1, h2, h3, h4, h5⟩ :=
        ih ({ s with pool := s.pool ++ [r], used_size := s.used_size + 1, calls := s.calls + 1, wakeups := s.wakeups + 1 }) hroom2 hf2
      refine ⟨s', ?_, ?_, ?_, ?_, ?_⟩
      · simp only [LazyPool.initLoop, hr', hp]
        exact h1
      · exact h2
      · have e2 : s'.used_size = s.used_size + 1 + n := h3
        omega
      · have e3 : s'.pool.length = (s.pool ++ [r]).length + n := h4
        have e4 : (s.pool ++ [r]).length = s.pool.length + 1 := by
          simp
        omega
      · have e5 : s'.calls = s.calls + 1 + n := h5
        omega

/-- When the capacity is zero the backing queue is unbounded: any list of
consecutive `put` calls succeeds and appends in order. -/
theorem Pool.putMany_unbounded {R : Type} :
    ∀ (rs : List R) (s : Pool R), s.pool_size = 0 →
      ∃ s', Pool.putMany rs s = .ok s' ∧ s'.queue = s.queue ++ rs ∧ s'.pool_size = 0 := by
  intro rs
  induction rs with
  | nil =>
    intro s hz
    exact ⟨s, rfl, by simp, hz⟩
  | cons r rs ih =>
    intro s hz
    have hp : Pool.put r s = .ok { s with queue := s.queue ++ [r] } := by
      rcases Pool.put_full_or_append r s with ⟨h1, _, _⟩ | ⟨_, hp⟩
      · omega
      · exact hp
    obtain ⟨s', h1, h2, h3⟩ := ih { s with queue := s.queue ++ [r] } hz
    refine ⟨s', ?_, ?_, h3⟩
    · simp only [Pool.putMany, hp]
      exact h1
    · have e1 : s'.queue = (s.queue ++ [r]) ++ rs := h2
      rw [e1]
      simp

/-! ## Claims -/

/-- C1: Capacity invariant.  For the eager pool, from any successful
construction and under any sequence of get/put in which callers release
only resources they previously borrowed (`b` counts outstanding borrows),
idle count plus borrowed count never exceeds the capacity.  For the lazy
pool, from any successful construction and under ANY sequence of
get/put/discard, the created count `_used_size` never exceeds `_pool_size`
and the idle list never holds more than `_pool_size` items. -/
theorem C1_capacity_invariant {E R : Type} (f g : Nat → Except E R)
    (se : Pool R) (b : Nat) (sl : LazyPool R)
    (he : Pool.Reach f se b) (hl : LazyPool.Reach g sl) :
    se.queue.length + b ≤ se.pool_size ∧
      sl.used_size ≤ sl.pool_size ∧ sl.pool.length ≤ sl.pool_size :=
  ⟨Pool.reach_capacity f se b he, (LazyPool.reach_bounds g sl hl).2.1,
    (LazyPool.reach_bounds g sl hl).2.2⟩

/-- Witness for C1 at freshly constructed pools `Pool(pool_size=1)` and
`LazyPool(pool_size=2, min_instances=1)`. -/
theorem C1_capacity_invariant_witness :
    ([0] : List Nat).length + 0 ≤ 1 ∧ (1 : Nat) ≤ 2 ∧ ([0] : List Nat).length ≤ 2 :=
  C1_capacity_invariant (fun i => (Except.ok i : Except Unit Nat))
    (fun i => (Except.ok i : Except Unit Nat)) ⟨[0], 1, 1⟩ 0 ⟨[0], 2, 1, 1, 1⟩
    (Pool.Reach.init 1 _ rfl) (LazyPool.Reach.init 2 1 _ rfl)

/-- C3 counterexample: the eager pool constructed with `pool_size=0` is a
pool state whose idle count equals its capacity (both `0`), yet `put`
succeeds instead of raising `PoolFull`, because `Queue(0)` is unbounded.
This falsifies "release raises PoolFull if and only if the idle set
already holds capacity items ... for every pool state". -/
theorem C3_counterexample :
    Pool.init (fun i => (Except.ok i : Except Unit Nat)) 0 =
        Except.ok (⟨[], 0, 0⟩ : Pool Nat) ∧
      Pool.size (⟨[], 0, 0⟩ : Pool Nat) = (⟨[], 0, 0⟩ : Pool Nat).pool_size ∧
      Pool.put 7 (⟨[], 0, 0⟩ : Pool Nat) = EPutResult.ok ⟨[7], 0, 0⟩ :=
  ⟨rfl, rfl, rfl⟩

/-- C3 (amended): `LazyPool.put` raises `PoolFull` iff the idle list holds
exactly `pool_size` items, and otherwise appends the resource and notifies
a waiter.  The eager `Pool.put` raises `PoolFull` iff the capacity is
positive and the idle count is at least the capacity (with capacity `0`
the backing queue is unbounded and `put` never raises); otherwise it
appends the resource. -/
theorem C3_put_full_amended {R : Type} (r : R) (sl : LazyPool R) (se : Pool R) :
    ((LazyPool.put r sl = .full sl) ↔ sl.pool.length = sl.pool_size) ∧
      (sl.pool.length ≠ sl.pool_size →
        LazyPool.put r sl =
          .ok { sl with pool := sl.pool ++ [r], wakeups := sl.wakeups + 1 }) ∧
      ((Pool.put r se = .full se) ↔ 0 < se.pool_size ∧ se.pool_size ≤ se.queue.length) ∧
      (¬(0 < se.pool_size ∧ se.pool_size ≤ se.queue.length) →
        Pool.put r se = .ok { se with queue := se.queue ++ [r] }) := by
  refine ⟨⟨?_, ?_⟩, ?_, ⟨?_, ?_⟩, ?_⟩
  · intro h
    rcases LazyPool.put_full_or_notify r sl with ⟨hc, _⟩ | ⟨_, hp⟩
    · exact hc
    · rw [hp] at h
      exact absurd h (by simp)
  · intro hc
    simp only [LazyPool.put]
    rw [if_pos hc]
  · intro hc
    rcases LazyPool.put_full_or_notify r sl with ⟨hfull, _⟩ | ⟨_, hp⟩
    · exact absurd hfull hc
    · exact hp
  · intro h
    rcases Pool.put_full_or_append r se with ⟨h1, h2, _⟩ | ⟨_, hp⟩
    · exact ⟨h1, h2⟩
    · rw [hp] at h
      exact absurd h (by simp)
  · intro hc
    simp only [Pool.put]
    rw [if_pos hc]
  · intro hc
    rcases Pool.put_full_or_append r se with ⟨h1, h2, _⟩ | ⟨_, hp⟩
    · exact absurd ⟨h1, h2⟩ hc
    · exact hp

/-- Witness for C3's amended theorem at a full lazy pool, a non-full lazy
pool, the unbounded `pool_size=0` eager pool, and a full eager pool. -/
theorem C3_put_full_amended_witness :
    LazyPool.put 9 (⟨[5], 1, 1, 1, 0⟩ : LazyPool Nat) = .full ⟨[5], 1, 1, 1, 0⟩ ∧
      LazyPool.put 9 (⟨[], 1, 1, 1, 0⟩ : LazyPool Nat) = .ok ⟨[9], 1, 1, 1, 1⟩ ∧
      Pool.put 9 (⟨[5], 0, 0⟩ : Pool Nat) = .ok ⟨[5, 9], 0, 0⟩ ∧
      Pool.put 9 (⟨[5], 1, 1⟩ : Pool Nat) = .full ⟨[5], 1, 1⟩ := by
  refine ⟨?_, ?_, ?_, ?_⟩
  · exact (C3_put_full_amended 9 (⟨[5], 1, 1, 1, 0⟩ : LazyPool Nat) ⟨[5], 1, 1⟩).1.2 rfl
  · exact (C3_put_full_amended 9 (⟨[], 1, 1, 1, 0⟩ : LazyPool Nat) ⟨[5], 1, 1⟩).2.1 (by decide)
  · exact (C3_put_full_amended 9 (⟨[5], 1, 1, 1, 0⟩ : LazyPool Nat) ⟨[5], 0, 0⟩).2.2.2 (by decide)
  · exact (C3_put_full_amended 9 (⟨[5], 1, 1, 1, 0⟩ : LazyPool Nat) ⟨[5], 1, 1⟩).2.2.1.2 (by decide)

/-- C4: Error atomicity.  For both pool types, when `get` raises
`PoolTimeout` or `put` raises `PoolFull`, the post state is exactly the
pre state: nothing is removed from or added to the idle collection, the
lazy created count is untouched, and no factory call or notification
happens (the ghost counters are part of the state equality). -/
theorem C4_error_atomicity {E R : Type} (f : Nat → Except E R) (r : R)
    (sgl sgl' spl spl' : LazyPool R) (sge sge' spe spe' : Pool R) :
    (sgl.get f = .timeout sgl' → sgl' = sgl) ∧
      (LazyPool.put r spl = .full spl' → spl' = spl) ∧
      (sge.get = .timeout sge' → sge' = sge) ∧
      (Pool.put r spe = .full spe' → spe' = spe) := by
  refine ⟨?_, ?_, ?_, ?_⟩
  · intro h
    cases hl : sgl.pool.getLast? with
    | some r0 =>
      simp only [LazyPool.get, hl] at h
      exact absurd h (by simp)
    | none =>
      simp only [LazyPool.get, hl] at h
      split at h
      case isTrue hu =>
        cases hfc : f sgl.calls with
        | ok r1 =>
          rw [hfc] at h
          exact absurd h (by simp)
        | error e1 =>
          rw [hfc] at h
          exact absurd h (by simp)
      case isFalse hu =>
        cases h
        rfl
  · intro h
    rcases LazyPool.put_full_or_notify r spl with ⟨_, hp⟩ | ⟨_, hp⟩
    · rw [hp] at h
      cases h
      rfl
    · rw [hp] at h
      exact absurd h (by simp)
  · intro h
    cases hq : sge.queue with
    | nil =>
      simp only [Pool.get, hq] at h
      cases h
      rfl
    | cons r0 rest =>
      simp only [Pool.get, hq] at h
      exact absurd h (by simp)
  · intro h
    rcases Pool.put_full_or_append r spe with ⟨_, _, hp⟩ | ⟨_, hp⟩
    · rw [hp] at h
      cases h
      rfl
    · rw [hp] at h
      exact absurd h (by simp)

/-- Witness for C4: a lazy `get` timing out (empty idle list, created
count at capacity), a lazy `put` on a full idle list, an eager `get` on an
empty queue, and an eager `put` on a full queue, each leaving the state
unchanged. -/
theorem C4_error_atomicity_witness :
    (⟨[], 1, 1, 0, 0⟩ : LazyPool Nat) = ⟨[], 1, 1, 0, 0⟩ ∧
      (⟨[5], 1, 1, 1, 0⟩ : LazyPool Nat) = ⟨[5], 1, 1, 1, 0⟩ ∧
      (⟨[], 1, 0⟩ : Pool Nat) = ⟨[], 1, 0⟩ ∧
      (⟨[5], 1, 1⟩ : Pool Nat) = ⟨[5], 1, 1⟩ := by
  have h := C4_error_atomicity (fun i => (Except.ok i : Except Unit Nat)) 9
    ⟨[], 1, 1, 0, 0⟩ ⟨[], 1, 1, 0, 0⟩ ⟨[5], 1, 1, 1, 0⟩ ⟨[5], 1, 1, 1, 0⟩
    ⟨[], 1, 0⟩ ⟨[], 1, 0⟩ ⟨[5], 1, 1⟩ ⟨[5], 1, 1⟩
  exact ⟨h.1 rfl, h.2.1 rfl, h.2.2.1 rfl, h.2.2.2 rfl⟩

/-- C5: LIFO fast path.  On any lazy pool state with a non-empty idle
list, `get` pops and returns the last-appended element, leaving
`used_size`, `calls` (no factory invocation) and `wakeups` (no wait)
untouched — the embedding of `get` takes no timeout parameter on this
path because `self._cond.wait` is never reached.  Moreover the element
returned right after a successful `put r` is that same `r`
(most-recently-released). -/
theorem C5_lifo_fast_path {E R : Type} (f : Nat → Except E R) (s : LazyPool R)
    (h : s.pool ≠ []) :
    (∃ r, s.pool.getLast? = some r ∧
      s.get f = .ok r { s with pool := s.pool.dropLast }) ∧
      (∀ r s1, LazyPool.put r s = .ok s1 →
        s1.get f = .ok r { s1 with pool := s1.pool.dropLast }) := by
  constructor
  · obtain ⟨r, hr⟩ := Option.ne_none_iff_exists'.mp
      (mt List.getLast?_eq_none_iff.mp h)
    refine ⟨r, hr, ?_⟩
    simp only [LazyPool.get, hr]
  · intro r s1 hp
    rcases LazyPool.put_full_or_notify r s with ⟨_, hp'⟩ | ⟨_, hp'⟩
    · rw [hp'] at hp
      exact absurd hp (by simp)
    · rw [hp'] at hp
      cases hp
      have hl : (s.pool ++ [r]).getLast? = some r := by
        simp
      simp only [LazyPool.get, hl]

/-- Witness for C5 on the idle list `[3, 4]`: `get` returns `4`. -/
theorem C5_lifo_fast_path_witness :
    (∃ r, ([3, 4] : List Nat).getLast? = some r ∧
      LazyPool.get (fun i => (Except.ok i : Except Unit Nat)) ⟨[3, 4], 2, 2, 0, 0⟩ =
        .ok r ⟨[3], 2, 2, 0, 0⟩) ∧
      (∀ r s1, LazyPool.put r (⟨[3, 4], 2, 2, 0, 0⟩ : LazyPool Nat) = .ok s1 →
        LazyPool.get (fun i => (Except.ok i : Except Unit Nat)) s1 =
          .ok r { s1 with pool := s1.pool.dropLast }) :=
  C5_lifo_fast_path (fun i => (Except.ok i : Except Unit Nat))
    ⟨[3, 4], 2, 2, 0, 0⟩ (by decide)

/-- C7: Factory failure in the create branch of `LazyPool.get` (idle list
empty, created count below capacity): the factory's exception `e`
propagates unchanged, the created count stays incremented by one (not
rolled back), and the idle list is unchanged (the result state only
updates `used_size` and the ghost call counter). -/
theorem C7_factory_failure {E R : Type} (f : Nat → Except E R) (s : LazyPool R) (e : E)
    (hpool : s.pool = []) (hused : s.used_size ≠ s.pool_size)
    (hf : f s.calls = Except.error e) :
    s.get f = .factoryError e { s with used_size := s.used_size + 1, calls := s.calls + 1 } := by
  have hl : s.pool.getLast? = none := by
    rw [hpool]
    rfl
  simp only [LazyPool.get, hl, hf]
  rw [if_pos hused]

/-- Witness for C7: a fresh `LazyPool(pool_size=1)` whose factory raises
on the first `get`. -/
theorem C7_factory_failure_witness :
    LazyPool.get (fun _ => (Except.error 42 : Except Nat Nat)) ⟨[], 1, 0, 0, 0⟩ =
      .factoryError 42 ⟨[], 1, 1, 1, 0⟩ :=
  C7_factory_failure (fun _ => (Except.error 42 : Except Nat Nat))
    ⟨[], 1, 0, 0, 0⟩ 42 rfl (by decide) rfl

/-- C9: Discard frame effect.  For every lazy pool state and every
resource argument (the argument is never inspected), `discard` decrements
the created count by one floored at zero (`Nat` subtraction), notifies
exactly one waiter, returns normally (it is a total function), and
changes nothing else: the idle list and the capacity are untouched and
the resource is not reinserted. -/
theorem C9_discard_frame {R : Type} (r : R) (s : LazyPool R) :
    (LazyPool.discard r s).pool = s.pool ∧
      (LazyPool.discard r s).pool_size = s.pool_size ∧
      (LazyPool.discard r s).used_size = s.used_size - 1 ∧
      (s.used_size = 0 → (LazyPool.discard r s).used_size = 0) ∧
      (LazyPool.discard r s).calls = s.calls ∧
      (LazyPool.discard r s).wakeups = s.wakeups + 1 := by
  refine ⟨rfl, rfl, rfl, ?_, rfl, rfl⟩
  intro h
  show s.used_size - 1 = 0
  omega

/-- Witness for C9 at a state with created count `0` (the floor case) and
a resource value `9` that was never borrowed from the pool. -/
theorem C9_discard_frame_witness :
    (LazyPool.discard 9 (⟨[1], 2, 0, 3, 0⟩ : LazyPool Nat)).pool = [1] ∧
      (LazyPool.discard 9 (⟨[1], 2, 0, 3, 0⟩ : LazyPool Nat)).pool_size = 2 ∧
      (LazyPool.discard 9 (⟨[1], 2, 0, 3, 0⟩ : LazyPool Nat)).used_size = 0 - 1 ∧
      (LazyPool.discard 9 (⟨[1], 2, 0, 3, 0⟩ : LazyPool Nat)).used_size = 0 ∧
      (LazyPool.discard 9 (⟨[1], 2, 0, 3, 0⟩ : LazyPool Nat)).calls = 3 ∧
      (LazyPool.discard 9 (⟨[1], 2, 0, 3, 0⟩ : LazyPool Nat)).wakeups = 0 + 1 := by
  have h := C9_discard_frame 9 (⟨[1], 2, 0, 3, 0⟩ : LazyPool Nat)
  exact ⟨h.1, h.2.1, h.2.2.1, h.2.2.2.1 rfl, h.2.2.2.2.1, h.2.2.2.2.2⟩

/-- C10: Constructing the eager `Pool` with `pool_size=0` succeeds without
calling the factory (the returned state records zero factory calls), and
on any pool state with capacity `0` every sequence of consecutive `put`
calls succeeds — the backing `Queue(0)` is unbounded, so `PoolFull` is
never raised and the spec's `capacity > 0` invariant is not validated at
construction. -/
theorem C10_pool_size_zero {E R : Type} (f : Nat → Except E R) (s : Pool R)
    (hz : s.pool_size = 0) :
    Pool.init f 0 = Except.ok ({ queue := [], pool_size := 0, calls := 0 } : Pool R) ∧
      ∀ rs : List R, ∃ s', Pool.putMany rs s = .ok s' ∧
        s'.queue = s.queue ++ rs ∧ s'.pool_size = 0 :=
  ⟨rfl, fun rs => Pool.putMany_unbounded rs s hz⟩

/-- Witness for C10: the freshly constructed `pool_size=0` pool accepts
any number of consecutive puts. -/
theorem C10_pool_size_zero_witness :
    Pool.init (fun i => (Except.ok i : Except Unit Nat)) 0 =
        Except.ok ({ queue := [], pool_size := 0, calls := 0 } : Pool Nat) ∧
      ∀ rs : List Nat, ∃ s', Pool.putMany rs (⟨[], 0, 0⟩ : Pool Nat) = .ok s' ∧
        s'.queue = [] ++ rs ∧ s'.pool_size = 0 :=
  C10_pool_size_zero (fun i => (Except.ok i : Except Unit Nat)) ⟨[], 0, 0⟩ rfl

/-- C2 counterexample: on the freshly constructed (hence reachable)
`LazyPool(pool_size=2)` the first `get` succeeds through the create
branch; putting the returned resource back leaves the idle count at `1`,
not its pre-get value `0`.  This falsifies "a successful get followed by
put of the returned resource restores the idle count" as stated for both
pool types and every reachable state. -/
theorem C2_counterexample :
    LazyPool.init (fun i => (Except.ok i : Except Unit Nat)) 2 0 =
        Except.ok (⟨[], 2, 0, 0, 0⟩ : LazyPool Nat) ∧
      LazyPool.get (fun i => (Except.ok i : Except Unit Nat)) (⟨[], 2, 0, 0, 0⟩ : LazyPool Nat) =
        .ok 0 ⟨[], 2, 1, 1, 0⟩ ∧
      LazyPool.put 0 (⟨[], 2, 1, 1, 0⟩ : LazyPool Nat) = .ok ⟨[0], 2, 1, 1, 1⟩ ∧
      LazyPool.size (⟨[0], 2, 1, 1, 1⟩ : LazyPool Nat) ≠
        LazyPool.size (⟨[], 2, 0, 0, 0⟩ : LazyPool Nat) :=
  ⟨rfl, rfl, rfl, by decide⟩

/-- C2 (amended): on every reachable state of either pool, after a
successful `get` the matching `put` always succeeds, and `reserve`
performs that `put` on both exit paths of the caller's block (normal
return and raise alike).  The eager pool's idle count is always restored
to its pre-get value; the lazy pool's idle count is restored when the
`get` was served from a non-empty idle list, and ends one above its
pre-get value when the `get` created a new resource (idle list empty). -/
theorem C2_round_trip_amended {E R : Type} (f g : Nat → Except E R)
    (sl : LazyPool R) (se : Pool R) (b : Nat)
    (hl : LazyPool.Reach f sl) (he : Pool.Reach g se b) :
    (∀ r s1, sl.get f = .ok r s1 →
      ∃ s2, LazyPool.put r s1 = .ok s2 ∧
        (sl.pool ≠ [] → s2.pool.length = sl.pool.length) ∧
        (sl.pool = [] → s2.pool.length = sl.pool.length + 1) ∧
        ∀ body : R → Bool,
          LazyPool.reserve f body sl = if body r then .ok s2 else .bodyRaised s2) ∧
      (∀ r s1, se.get = .ok r s1 →
        ∃ s2, Pool.put r s1 = .ok s2 ∧ s2.queue.length = se.queue.length ∧
          ∀ body : R → Bool,
            Pool.reserve body se = if body r then .ok s2 else .bodyRaised s2) := by
  obtain ⟨hps, hused, hlen⟩ := LazyPool.reach_bounds f sl hl
  have hqinv := Pool.reach_capacity g se b he
  constructor
  · intro r s1 hget
    have hget2 := hget
    cases hLast : sl.pool.getLast? with
    | some r0 =>
      simp only [LazyPool.get, hLast] at hget2
      cases hget2
      have hne : sl.pool ≠ [] := by
        intro hnil
        rw [hnil] at hLast
        simp at hLast
      have hlen1 : 0 < sl.pool.length := List.length_pos.mpr hne
      rcases LazyPool.put_full_or_notify r { sl with pool := sl.pool.dropLast } with
        ⟨hfull, _⟩ | ⟨_, hp⟩
      · have hfull' : sl.pool.dropLast.length = sl.pool_size := hfull
        have hd : sl.pool.dropLast.length = sl.pool.length - 1 := by
          simp
        omega
      · refine ⟨_, hp, ?_, ?_, ?_⟩
        · intro _
          show (sl.pool.dropLast ++ [r]).length = sl.pool.length
          have hd : sl.pool.dropLast.length = sl.pool.length - 1 := by
            simp
          have ha : (sl.pool.dropLast ++ [r]).length = sl.pool.dropLast.length + 1 := by
            simp
          omega
        · intro hnil
          exact absurd hnil hne
        · intro body
          simp only [LazyPool.reserve, hget, hp]
    | none =>
      have hnil : sl.pool = [] := List.getLast?_eq_none_iff.mp hLast
      simp only [LazyPool.get, hLast] at hget2
      split at hget2
      case isTrue hu =>
        cases hfc : f sl.calls with
        | ok r1 =>
          rw [hfc] at hget2
          cases hget2
          rcases LazyPool.put_full_or_notify r { sl with used_size := sl.used_size + 1, calls := sl.calls + 1 } with
            ⟨hfull, _⟩ | ⟨_, hp⟩
          · have hfull' : sl.pool.length = sl.pool_size := hfull
            rw [hnil] at hfull'
            simp at hfull'
            omega
          · refine ⟨_, hp, ?_, ?_, ?_⟩
            · intro hne
              exact absurd hnil hne
            · intro _
              show (sl.pool ++ [r]).length = sl.pool.length + 1
              simp
            · intro body
              simp only [LazyPool.reserve, hget, hp]
        | error e1 =>
          rw [hfc] at hget2
          exact absurd hget2 (by simp)
      case isFalse hu => exact absurd hget2 (by simp)
  · intro r s1 hget
    have hget2 := hget
    cases hq : se.queue with
    | nil =>
      simp only [Pool.get, hq] at hget2
      exact absurd hget2 (by simp)
    | cons r0 rest =>
      simp only [Pool.get, hq] at hget2
      cases hget2
      have hql : se.queue.length = rest.length + 1 := by
        rw [hq]
        simp
      rcases Pool.put_full_or_append r { se with queue := rest } with ⟨h1, h2, _⟩ | ⟨_, hp⟩
      · have h1' : 0 < se.pool_size := h1
        have h2' : se.pool_size ≤ rest.length := h2
        omega
      · refine ⟨_, hp, ?_, ?_⟩
        · show (rest ++ [r]).length = (r :: rest).length
          simp
        · intro body
          simp only [Pool.reserve, hget, hp]

/-- Witness for C2's amended theorem at the reachable lazy state reached
by init, get (create branch), put — idle list `[0]` — and the freshly
constructed eager pool of capacity 1. -/
theorem C2_round_trip_amended_witness :
    (∀ r s1,
      LazyPool.get (fun i => (Except.ok i : Except Unit Nat)) ⟨[0], 2, 1, 1, 1⟩ = .ok r s1 →
      ∃ s2, LazyPool.put r s1 = .ok s2 ∧
        (([0] : List Nat) ≠ [] → s2.pool.length = ([0] : List Nat).length) ∧
        (([0] : List Nat) = [] → s2.pool.length = ([0] : List Nat).length + 1) ∧
        ∀ body : Nat → Bool,
          LazyPool.reserve (fun i => (Except.ok i : Except Unit Nat)) body ⟨[0], 2, 1, 1, 1⟩ =
            if body r then .ok s2 else .bodyRaised s2) ∧
      (∀ r s1, Pool.get (⟨[0], 1, 1⟩ : Pool Nat) = .ok r s1 →
        ∃ s2, Pool.put r s1 = .ok s2 ∧ s2.queue.length = ([0] : List Nat).length ∧
          ∀ body : Nat → Bool,
            Pool.reserve body (⟨[0], 1, 1⟩ : Pool Nat) =
              if body r then .ok s2 else .bodyRaised s2) :=
  C2_round_trip_amended (fun i => (Except.ok i : Except Unit Nat))
    (fun i => (Except.ok i : Except Unit Nat)) ⟨[0], 2, 1, 1, 1⟩ ⟨[0], 1, 1⟩ 0
    (LazyPool.Reach.put _ _ _
      (LazyPool.Reach.getOk _ _ _ (LazyPool.Reach.init 2 0 _ rfl) rfl) rfl)
    (Pool.Reach.init 1 _ rfl)

/-- C6: Lazy creation counts.  Constructing
`LazyPool(factory, pool_size, min_instances)` with
`min_instances < pool_size` and a factory whose first `min_instances`
calls succeed invokes the factory exactly `min_instances` times (zero
when omitted) and leaves `min_instances` idle resources and created count
`min_instances`.  On any state with an empty idle list and created count
below capacity, `get` makes exactly one factory call and increments the
created count by one. -/
theorem C6_lazy_creation_counts {E R : Type} (f : Nat → Except E R) (ps mi : Nat)
    (hps : mi < ps) (hf : ∀ i, i < mi → ∃ r, f i = Except.ok r) :
    (∃ s, LazyPool.init f ps mi = Except.ok s ∧
      s.calls = mi ∧ s.pool.length = mi ∧ s.used_size = mi) ∧
      ∀ (s : LazyPool R), s.pool = [] → s.used_size ≠ s.pool_size →
        (s.get f).state.calls = s.calls + 1 ∧
          (s.get f).state.used_size = s.used_size + 1 := by
  constructor
  · have hstart : ([] : List R).length + mi ≤ ps := by
      simp
      omega
    have hfac : ∀ i, i < mi → ∃ r, f ((0 : Nat) + i) = Except.ok r := by
      intro i hi
      obtain ⟨r, hr⟩ := hf i hi
      refine ⟨r, ?_⟩
      simpa using hr
    obtain ⟨s', h1, h2, h3, h4, h5⟩ := LazyPool.initLoop_spec f mi ({ pool := [], pool_size := ps, used_size := 0, calls := 0, wakeups := 0 } : LazyPool R) hstart hfac
    have e2 : s'.used_size = 0 + mi := h3
    have e3 : s'.pool.length = ([] : List R).length + mi := h4
    have e4 : ([] : List R).length = 0 := rfl
    have e5 : s'.calls = 0 + mi := h5
    refine ⟨s', ?_, by omega, by omega, by omega⟩
    simp only [LazyPool.init]
    rw [if_pos hps]
    exact h1
  · intro s hpool hused
    have hlast : s.pool.getLast? = none := by
      rw [hpool]
      rfl
    cases hfc : f s.calls with
    | ok r =>
      have hg : s.get f = .ok r { s with used_size := s.used_size + 1, calls := s.calls + 1 } := by
        simp only [LazyPool.get, hlast, hfc]
        rw [if_pos hused]
      rw [hg]
      exact ⟨rfl, rfl⟩
    | error e =>
      have hg : s.get f =
          .factoryError e { s with used_size := s.used_size + 1, calls := s.calls + 1 } := by
        simp only [LazyPool.get, hlast, hfc]
        rw [if_pos hused]
      rw [hg]
      exact ⟨rfl, rfl⟩

/-- Witness for C6 at the spec's example `LazyPool(factory, pool_size=8,
min_instances=2)`. -/
theorem C6_lazy_creation_counts_witness :
    (∃ s, LazyPool.init (fun i => (Except.ok i : Except Unit Nat)) 8 2 = Except.ok s ∧
      s.calls = 2 ∧ s.pool.length = 2 ∧ s.used_size = 2) ∧
      ∀ (s : LazyPool Nat), s.pool = [] → s.used_size ≠ s.pool_size →
        (s.get (fun i => (Except.ok i : Except Unit Nat))).state.calls = s.calls + 1 ∧
          (s.get (fun i => (Except.ok i : Except Unit Nat))).state.used_size =
            s.used_size + 1 :=
  C6_lazy_creation_counts (fun i => (Except.ok i : Except Unit Nat)) 8 2
    (by decide) (fun i _ => ⟨i, rfl⟩)

/-- C8 counterexample: with `timeout = 10`, a waiting `get` whose waits
are notified after 6 time units each (first wake finds the idle list
still empty, second finds a resource) returns the resource after a total
wait of 12 > 10 instead of failing with `PoolTimeout` once total elapsed
waiting reaches the timeout — the source passes the full `timeout` to
every `self._cond.wait(timeout)` call, so the budget is per-iteration,
not shared across iterations. -/
theorem C8_counterexample :
    getWaitLoop 10 1 [⟨6, [], 1⟩, ⟨6, [0], 1⟩] ([] : List Nat) 1 0 =
      GetLoopResult.popped 0 12 ∧ 10 < 12 :=
  ⟨rfl, by decide⟩

/-- C8 (amended): each iteration of the wait loop is given the full
timeout `t` afresh: a wake after `elapsed ≤ t` is accepted and the loop
continues regardless of how much total waiting has already accumulated,
and a wake that would arrive after more than `t` makes that single wait
expire and raise `PoolTimeout` — so `PoolTimeout` is governed by the
individual wait, not by total elapsed time from the call's start. -/
theorem C8_per_iteration_timeout_amended {R : Type} (t ps : Nat) (e : WakeEvent R)
    (rest : List (WakeEvent R)) (used total : Nat) (hu : used = ps) :
    (e.elapsed ≤ t →
      getWaitLoop t ps (e :: rest) ([] : List R) used total =
        getWaitLoop t ps rest e.pool' e.used' (total + e.elapsed)) ∧
      (t < e.elapsed →
        getWaitLoop t ps (e :: rest) ([] : List R) used total =
          GetLoopResult.timeout (total + t)) := by
  subst hu
  have hni : ¬(used ≠ used) := by simp
  constructor
  · intro hle
    rw [getWaitLoop]
    simp only [List.getLast?_nil, if_neg hni, if_neg (Nat.not_lt.mpr hle)]
  · intro hlt
    rw [getWaitLoop]
    simp only [List.getLast?_nil, if_neg hni, if_pos hlt]

/-- Witness for C8's amended theorem: a single wake after 6 units against
timeout 10 is accepted with the full fresh budget. -/
theorem C8_per_iteration_timeout_amended_witness :
    getWaitLoop 10 1 [⟨6, [0], 1⟩] ([] : List Nat) 1 0 =
      getWaitLoop 10 1 [] [0] 1 (0 + 6) :=
  (C8_per_iteration_timeout_amended 10 1 ⟨6, [0], 1⟩ [] 1 0 rfl).1 (by decide)

end ResourcePool
